import Mathlib

/- Verification of the token-stream stringifier and macro-name resolution
   behavior probed by the gccrs regression test
   gcc/testsuite/rust/execute/torture/builtin_macro_stringify.rs.
   The repository snapshot contains only the test fixture, so the Token
   Model, the Stringifier, the Macro Definition Table and the Macro
   Resolver are modelled from the specification; the fixture (its dg-output
   directive, its two invocations and its user macro declaration) is
   embedded from the source file. -/

namespace Gccrs

/-- Character class of ASCII decimal digits, used by the modelled lexer and
by the well-formedness predicate for numeric literal tokens. -/
def isDigitCh (c : Char) : Bool := decide (48 ≤ c.toNat ∧ c.toNat ≤ 57)

/-- Character class of ASCII letters. -/
def isAlphaCh (c : Char) : Bool :=
  decide ((65 ≤ c.toNat ∧ c.toNat ≤ 90) ∨ (97 ≤ c.toNat ∧ c.toNat ≤ 122))

/-- Characters that may start an identifier: a letter or an underscore. -/
def isIdentStartCh (c : Char) : Bool := isAlphaCh c || c == '_'

/-- Characters that may continue an identifier: a letter, a digit or an
underscore. -/
def isIdentCh (c : Char) : Bool := isAlphaCh c || isDigitCh c || c == '_'

/-- The six delimiter characters. -/
def isDelimCh (c : Char) : Bool :=
  c == '(' || c == ')' || c == '[' || c == ']' || c == '\x7b' || c == '\x7d'

/-- Characters lexed as punctuation: not a space, not a delimiter, not a
string quote, and unable to start a number or an identifier. -/
def isPunctCh (c : Char) : Bool :=
  !(c == ' ') && !(isDelimCh c) && !(c == '"') && !(isDigitCh c) &&
    !(isIdentStartCh c)

/-- Modelled from the spec: the literal kinds distinguished by the Token
Model (numeric literal, string literal). -/
inductive LitKind where
  | numeric
  | string
deriving DecidableEq

/-- Modelled from the spec: a lexical token - Identifier(text),
Literal(kind, raw text) or Punctuation(symbol, joint-flag); the joint flag
records whether the punctuation token was lexically adjacent (no intervening
whitespace) to the next token. -/
inductive Token where
  | ident (text : String)
  | lit (kind : LitKind) (raw : String)
  | punct (sym : Char) (joint : Bool)
deriving DecidableEq

/-- Modelled from the spec: the delimiter kind of a Group - parenthesis,
bracket, brace or none. -/
inductive DelimKind where
  | paren
  | bracket
  | brace
  | noDelim
deriving DecidableEq

mutual
/-- Modelled from the spec: one element of a token tree, either a flat Token
or a Group carrying a delimiter kind and a nested body. -/
inductive TreeItem : Type where
  | tok (t : Token)
  | group (d : DelimKind) (body : TokenTree)

/-- Modelled from the spec: a TokenTree is an ordered sequence of Token or
Group, the unit captured at a macro invocation site. -/
inductive TokenTree : Type where
  | nil
  | cons (item : TreeItem) (rest : TokenTree)
end

/-- Builds a token tree from a list of items. -/
def ofList : List TreeItem → TokenTree
  | [] => .nil
  | i :: is => .cons i (ofList is)

/-- The items of a token tree, as a list. -/
def itemsOf : TokenTree → List TreeItem
  | .nil => []
  | .cons i rest => i :: itemsOf rest

/-- A flattened token-stream event: a token, or an open or close delimiter.
The depth-first traversal of a token tree is a list of these. -/
inductive Flat where
  | ftok (t : Token)
  | fopen (d : DelimKind)
  | fclose (d : DelimKind)
deriving DecidableEq

/-- Depth-first, left-to-right flattening of a token tree into its token and
delimiter events; a group whose delimiter kind is none contributes no
delimiter events, its body is spliced inline. -/
def flattenTree : TokenTree → List Flat
  | .nil => []
  | .cons (.tok t) rest => .ftok t :: flattenTree rest
  | .cons (.group .noDelim body) rest => flattenTree body ++ flattenTree rest
  | .cons (.group .paren body) rest =>
      .fopen .paren :: flattenTree body ++ .fclose .paren :: flattenTree rest
  | .cons (.group .bracket body) rest =>
      .fopen .bracket :: flattenTree body ++ .fclose .bracket :: flattenTree rest
  | .cons (.group .brace body) rest =>
      .fopen .brace :: flattenTree body ++ .fclose .brace :: flattenTree rest

/-- The canonical textual form of one event: identifier text verbatim, the
raw text of a literal, the single punctuation character, or a delimiter
character. -/
def atomText : Flat → List Char
  | .ftok (.ident s) => s.data
  | .ftok (.lit _ raw) => raw.data
  | .ftok (.punct c _) => [c]
  | .fopen .paren => ['(']
  | .fopen .bracket => ['[']
  | .fopen .brace => ['\x7b']
  | .fopen .noDelim => []
  | .fclose .paren => [')']
  | .fclose .bracket => [']']
  | .fclose .brace => ['\x7d']
  | .fclose .noDelim => []

/-- Modelled from the spec: the separating text emitted after an event - a
single space between consecutive items, except that a punctuation token whose
joint flag is set is fused with the following item (zero characters). -/
def sepAfter : Flat → List Char
  | .ftok (.punct _ true) => []
  | _ => [' ']

/-- Joins the canonical texts of a list of events, inserting before each item
the separator dictated by the previous event. -/
def joinAtoms : List Flat → List Char
  | [] => []
  | [a] => atomText a
  | a :: b :: rest => atomText a ++ (sepAfter a ++ joinAtoms (b :: rest))

/-- Modelled from the spec: the Token-Stream Stringifier. render performs a
depth-first, left-to-right traversal of the tree, emits the canonical form of
every token and delimiter, and inserts a single separating space between
consecutive items unless the previous punctuation token was marked joint. -/
def render (tree : TokenTree) : String := String.mk (joinAtoms (flattenTree tree))

/-- The body of a well-formed string literal after the opening quote: a
nonempty character list whose final character is the closing double quote and
which contains no other double quote. -/
def strBody : List Char → Bool
  | [] => false
  | c :: cs => if cs.isEmpty then c == '"' else !(c == '"') && strBody cs

/-- Well-formedness of a single token (the Token Model invariant): identifier
text is a nonempty identifier word, a numeric literal is a nonempty digit
run, a string literal is quote-delimited raw text, and a punctuation symbol
is a punctuation character. -/
def wfToken : Token → Bool
  | .ident s =>
      match s.data with
      | [] => false
      | c :: cs => isIdentStartCh c && cs.all isIdentCh
  | .lit .numeric raw =>
      match raw.data with
      | [] => false
      | c :: cs => isDigitCh c && cs.all isDigitCh
  | .lit .string raw =>
      match raw.data with
      | '"' :: body => strBody body
      | _ => false
  | .punct c _ => isPunctCh c

/-- Well-formedness of one flattened event; delimiter events never carry the
delimiter kind none. -/
def wfFlat : Flat → Bool
  | .ftok t => wfToken t
  | .fopen d => !(d == .noDelim)
  | .fclose d => !(d == .noDelim)

/-- Well-formedness of a list of events. -/
def wfAtoms (l : List Flat) : Bool := l.all wfFlat

/-- Well-formedness of a token tree: every token of its depth-first
flattening is well-formed. -/
def wfTree (t : TokenTree) : Bool := wfAtoms (flattenTree t)

/-- Splits a character list at the first double quote, returning the
characters before it and the characters after it. -/
def splitQuote : List Char → Option (List Char × List Char)
  | [] => none
  | c :: cs =>
      if c = '"' then some ([], cs)
      else Option.map (fun p => (c :: p.1, p.2)) (splitQuote cs)

theorem splitQuote_length : ∀ {cs i r : List Char},
    splitQuote cs = some (i, r) → r.length < cs.length := by
  intro cs
  induction cs with
  | nil => intro i r h; simp [splitQuote] at h
  | cons c cs ih =>
      intro i r h
      by_cases hc : c = '"'
      · simp only [splitQuote, if_pos hc, Option.some.injEq, Prod.mk.injEq] at h
        simp [← h.2, List.length_cons, Nat.lt_succ_self]
      · simp only [splitQuote, if_neg hc, Option.map_eq_some'] at h
        obtain ⟨⟨i0, r0⟩, hsp, hpr⟩ := h
        have := ih hsp
        cases hpr
        simp only [List.length_cons]
        omega

/-- True when the next character exists and is not a space: the joint flag a
relexed punctuation token receives. -/
def jointAfter : List Char → Bool
  | [] => false
  | c :: _ => !(c == ' ')

/-- Modelled from the spec: the external lexer used to re-tokenize rendered
text. It skips spaces, maps delimiter characters to open and close events,
reads string literals up to the closing quote, reads maximal runs of digits
and of identifier characters, and lexes any other character as a punctuation
token whose joint flag records adjacency to the next character. It fails only
on an unterminated string literal. -/
def lexChars : List Char → Option (List Flat)
  | [] => some []
  | c :: cs =>
      if c = ' ' then lexChars cs
      else if c = '(' then Option.map (.fopen .paren :: ·) (lexChars cs)
      else if c = ')' then Option.map (.fclose .paren :: ·) (lexChars cs)
      else if c = '[' then Option.map (.fopen .bracket :: ·) (lexChars cs)
      else if c = ']' then Option.map (.fclose .bracket :: ·) (lexChars cs)
      else if c = '\x7b' then Option.map (.fopen .brace :: ·) (lexChars cs)
      else if c = '\x7d' then Option.map (.fclose .brace :: ·) (lexChars cs)
      else if c = '"' then
        match h : splitQuote cs with
        | none => none
        | some (inner, rest) =>
            Option.map (.ftok (.lit .string (String.mk ('"' :: (inner ++ ['"'])))) :: ·)
              (lexChars rest)
      else if isDigitCh c then
        Option.map (.ftok (.lit .numeric (String.mk (c :: cs.takeWhile isDigitCh))) :: ·)
          (lexChars (cs.dropWhile isDigitCh))
      else if isIdentStartCh c then
        Option.map (.ftok (.ident (String.mk (c :: cs.takeWhile isIdentCh))) :: ·)
          (lexChars (cs.dropWhile isIdentCh))
      else
        Option.map (.ftok (.punct c (jointAfter cs)) :: ·) (lexChars cs)
termination_by l => l.length
decreasing_by
  all_goals simp only [List.length_cons]
  all_goals first
    | exact Nat.lt_succ_self _
    | exact Nat.lt_succ_of_lt (splitQuote_length h)
    | exact Nat.lt_succ_of_le (List.Sublist.length_le (List.dropWhile_sublist _))

/-- State of the tree builder: a stack of open groups (each the delimiter
kind and the items accumulated before the group opened, in reverse) plus the
items of the current sequence in reverse. -/
abbrev MState : Type := List (DelimKind × List TreeItem) × List TreeItem

/-- One step of the tree builder: a token accumulates, an open delimiter
pushes a group frame, a close delimiter pops the matching frame and closes
the group; a mismatched or unmatched close delimiter fails. -/
def stepFlat : MState → Flat → Option MState
  | st, .ftok t => some (st.1, .tok t :: st.2)
  | st, .fopen d => some ((d, st.2) :: st.1, [])
  | st, .fclose d =>
      match st.1 with
      | [] => none
      | (d0, saved) :: stack =>
          if d = d0 then some (stack, .group d (ofList st.2.reverse) :: saved)
          else none

/-- Runs the tree builder over a list of events. -/
def processFlats : List Flat → MState → Option MState
  | [], st => some st
  | f :: fs, st => Option.bind (stepFlat st f) (processFlats fs)

/-- Builds a token tree from a flat event list; fails when delimiters are
unbalanced. -/
def treeify (fl : List Flat) : Option TokenTree :=
  match processFlats fl ([], []) with
  | some ([], cur) => some (ofList cur.reverse)
  | _ => none

/-- Modelled from the spec: re-tokenizing rendered text - lex the characters
and rebuild the token tree. -/
def reparse (s : String) : Option TokenTree := Option.bind (lexChars s.data) treeify

/-- Modelled from the spec: the builtin macro kinds; the kind of the
stringifying builtin is a singleton with no state. -/
inductive BuiltinKind where
  | stringify
deriving DecidableEq

/-- Modelled from the spec: the pattern of a user macro rule. The only
pattern form the fixture uses is the star repetition of a tt fragment
binder, which matches any token stream; it is modelled as a pattern binding
the named metavariable to the whole captured sequence. -/
inductive MacroPattern where
  | repAnyTT (var : String)

/-- Modelled from the spec: one user macro rule, a pattern and the token
sequence it transcribes to. -/
structure MacroRule where
  pat : MacroPattern
  body : TokenTree

/-- Modelled from the spec: a macro definition is either a builtin or a
user-defined list of pattern rules. -/
inductive MacroDefinition where
  | builtin (k : BuiltinKind)
  | userDefined (rules : List MacroRule)

/-- Modelled from the spec: the Macro Definition Table, a mapping from macro
name to definition in which the most recent insertion for a name is found
first. -/
abbrev MacroDefinitionTable : Type := List (String × MacroDefinition)

/-- Modelled from the spec: table lookup - the definition most recently
inserted for the name, when one is present. -/
def lookupName : MacroDefinitionTable → String → Option MacroDefinition
  | [], _ => none
  | (n, d) :: rest, name => if name = n then some d else lookupName rest name

/-- Modelled from the spec: the explicit set of builtin names the source
language designates non-shadowable. -/
def nonShadowable : List String := ["stringify"]

/-- True when the name is non-shadowable and the table currently stores a
builtin definition for it. -/
def protectedBuiltin (tbl : MacroDefinitionTable) (name : String) : Bool :=
  nonShadowable.contains name &&
    match lookupName tbl name with
    | some (.builtin _) => true
    | _ => false

/-- Modelled from the spec: table insertion - always succeeds and replaces
any prior entry, unless the name denotes a builtin that the language
designates non-shadowable, in which case the stored builtin is kept. -/
def insertName (tbl : MacroDefinitionTable) (name : String) (d : MacroDefinition) :
    MacroDefinitionTable :=
  if protectedBuiltin tbl name then tbl else (name, d) :: tbl

/-- Inserts a list of declarations in order. -/
def insertAll (tbl : MacroDefinitionTable) (l : List (String × MacroDefinition)) :
    MacroDefinitionTable :=
  l.foldl (fun t p => insertName t p.1 p.2) tbl

/-- Modelled from the spec: the state machine of the Macro Resolver over a
single invocation site. -/
inductive ResolveState where
  | unresolved
  | resolvedBuiltin (k : BuiltinKind)
  | resolvedUser (rules : List MacroRule)
  | error (msg : String) (site : Nat)

/-- Modelled from the spec: resolution of an invocation. The name is looked
up in the table; an absent name is a fatal unknown-macro error reported with
the call-site location; a stored builtin resolves to ResolvedBuiltin (the
non-shadowable policy is enforced at insertion, so a reserved builtin is
always the stored definition); a stored user definition resolves to
ResolvedUser. -/
def resolve (tbl : MacroDefinitionTable) (name : String) (site : Nat) : ResolveState :=
  match lookupName tbl name with
  | none => .error "unknown macro" site
  | some (.builtin k) => .resolvedBuiltin k
  | some (.userDefined rules) => .resolvedUser rules

/-- Modelled from the spec: matching an invocation against a rule pattern;
the star repetition of a tt fragment matches any token sequence and binds its
metavariable to the whole sequence. -/
def matchPattern : MacroPattern → TokenTree → Option (List (String × TokenTree))
  | .repAnyTT v, ts => some [(v, ts)]

/-- Modelled from the spec: expansion by the substitution engine for a
splice-free transcription body (the fixture rule transcribes to the empty
token stream): when the first rule pattern matches, the result is the rule
body. -/
def expandUser (rules : List MacroRule) (ts : TokenTree) : Option TokenTree :=
  match rules with
  | [] => none
  | r :: _ => Option.map (fun _ => r.body) (matchPattern r.pat ts)

/-- Modelled from the spec: the stringify builtin replaces the invocation
with a single string-literal token carrying the rendered text of the captured
tree. -/
def expandBuiltin : BuiltinKind → TokenTree → Token
  | .stringify, ts => .lit .string (String.mk ('"' :: ((render ts).data ++ ['"'])))

/-- From the fixture builtin_macro_stringify.rs, line 1: the dg-output
directive giving the expected program output. -/
def fixtureDgOutput : String := "let a = 2\n18\n"

/-- From the fixture, line 18: the token tree captured by the first stringify
invocation, stringify!(let a = 2). -/
def fixtureTree1 : TokenTree :=
  ofList [.tok (.ident "let"), .tok (.ident "a"), .tok (.punct '=' false),
    .tok (.lit .numeric "2")]

/-- From the fixture, lines 21 to 27: the token tree captured by the second
stringify invocation, a brace-delimited multi-line token tree. -/
def fixtureTree2 : TokenTree :=
  ofList [.group .brace (ofList
    [.tok (.ident "testing"), .tok (.ident "stringify"),
     .tok (.ident "for"), .tok (.ident "i"),
     .tok (.punct ':' true), .tok (.punct '=' false),
     .tok (.ident "range"), .tok (.lit .numeric "1"),
     .tok (.punct '.' true), .tok (.punct '.' true), .tok (.punct '.' true),
     .tok (.lit .numeric "123"),
     .group .brace (ofList
       [.tok (.ident "println"), .tok (.punct '!' true),
        .group .paren (ofList [.tok (.lit .string "\"go go go\"")])]),
     .tok (.ident "let"), .tok (.ident "x"), .tok (.punct '=' false),
     .tok (.lit .numeric "123"), .tok (.punct ';' false)])]

/-- From the fixture, lines 13 to 15: the user macro_rules stringify
definition, a single rule whose pattern captures every token tree and whose
transcription body is empty. -/
def fixtureUserStringify : MacroDefinition :=
  .userDefined [⟨.repAnyTT "t", .nil⟩]

/-- The Definition Table of the fixture compilation unit: the stringify
builtin inserted first, the user declaration from line 13 inserted
afterwards. -/
def fixtureTable : MacroDefinitionTable :=
  insertName (insertName [] "stringify" (.builtin .stringify)) "stringify"
    fixtureUserStringify

/-- A character in a class cannot equal a character outside it. -/
theorem classNe {p : Char → Bool} {c x : Char} (h : p c = true) (hx : p x = false) :
    ¬(c = x) := by
  intro he; rw [he, hx] at h; exact absurd h (by decide)

theorem identStart_isIdentCh {c : Char} (h : isIdentStartCh c = true) :
    isIdentCh c = true := by
  simp only [isIdentStartCh, Bool.or_eq_true] at h
  rcases h with h | h <;> simp [isIdentCh, h]

theorem identStart_not_digit {c : Char} (h : isIdentStartCh c = true) :
    isDigitCh c = false := by
  simp only [isIdentStartCh, Bool.or_eq_true, beq_iff_eq] at h
  rcases h with h | h
  · simp only [isAlphaCh, decide_eq_true_eq] at h
    simp only [isDigitCh, decide_eq_false_iff_not]
    omega
  · subst h; decide

theorem punct_not_digit {c : Char} (h : isPunctCh c = true) : isDigitCh c = false := by
  cases hd : isDigitCh c
  · rfl
  · simp [isPunctCh, hd] at h

theorem punct_not_identStart {c : Char} (h : isPunctCh c = true) :
    isIdentStartCh c = false := by
  cases hi : isIdentStartCh c
  · rfl
  · simp [isPunctCh, hi] at h

theorem lexChars_space (r : List Char) : lexChars (' ' :: r) = lexChars r := by
  simp [lexChars]

theorem lexChars_open_paren (r : List Char) :
    lexChars ('(' :: r) = Option.map (.fopen .paren :: ·) (lexChars r) := by
  simp [lexChars]

theorem lexChars_close_paren (r : List Char) :
    lexChars (')' :: r) = Option.map (.fclose .paren :: ·) (lexChars r) := by
  simp [lexChars]

theorem lexChars_open_bracket (r : List Char) :
    lexChars ('[' :: r) = Option.map (.fopen .bracket :: ·) (lexChars r) := by
  simp [lexChars]

theorem lexChars_close_bracket (r : List Char) :
    lexChars (']' :: r) = Option.map (.fclose .bracket :: ·) (lexChars r) := by
  simp [lexChars]

theorem lexChars_open_brace (r : List Char) :
    lexChars ('\x7b' :: r) = Option.map (.fopen .brace :: ·) (lexChars r) := by
  simp [lexChars]

theorem lexChars_close_brace (r : List Char) :
    lexChars ('\x7d' :: r) = Option.map (.fclose .brace :: ·) (lexChars r) := by
  simp [lexChars]

theorem lexChars_punct {c : Char} (hc : isPunctCh c = true) (r : List Char) :
    lexChars (c :: r) =
      Option.map (.ftok (.punct c (jointAfter r)) :: ·) (lexChars r) := by
  have g1 := classNe hc (by decide : isPunctCh ' ' = false)
  have g2 := classNe hc (by decide : isPunctCh '(' = false)
  have g3 := classNe hc (by decide : isPunctCh ')' = false)
  have g4 := classNe hc (by decide : isPunctCh '[' = false)
  have g5 := classNe hc (by decide : isPunctCh ']' = false)
  have g6 := classNe hc (by decide : isPunctCh '\x7b' = false)
  have g7 := classNe hc (by decide : isPunctCh '\x7d' = false)
  have g8 := classNe hc (by decide : isPunctCh '"' = false)
  have hd := punct_not_digit hc
  have hi := punct_not_identStart hc
  simp [lexChars, g1, g2, g3, g4, g5, g6, g7, g8, hd, hi]

theorem lexChars_digit {c : Char} (hc : isDigitCh c = true) (r : List Char) :
    lexChars (c :: r) =
      Option.map (.ftok (.lit .numeric (String.mk (c :: r.takeWhile isDigitCh))) :: ·)
        (lexChars (r.dropWhile isDigitCh)) := by
  have g1 := classNe hc (by decide : isDigitCh ' ' = false)
  have g2 := classNe hc (by decide : isDigitCh '(' = false)
  have g3 := classNe hc (by decide : isDigitCh ')' = false)
  have g4 := classNe hc (by decide : isDigitCh '[' = false)
  have g5 := classNe hc (by decide : isDigitCh ']' = false)
  have g6 := classNe hc (by decide : isDigitCh '\x7b' = false)
  have g7 := classNe hc (by decide : isDigitCh '\x7d' = false)
  have g8 := classNe hc (by decide : isDigitCh '"' = false)
  simp [lexChars, g1, g2, g3, g4, g5, g6, g7, g8, hc]

theorem lexChars_identStart {c : Char} (hc : isIdentStartCh c = true) (r : List Char) :
    lexChars (c :: r) =
      Option.map (.ftok (.ident (String.mk (c :: r.takeWhile isIdentCh))) :: ·)
        (lexChars (r.dropWhile isIdentCh)) := by
  have g1 := classNe hc (by decide : isIdentStartCh ' ' = false)
  have g2 := classNe hc (by decide : isIdentStartCh '(' = false)
  have g3 := classNe hc (by decide : isIdentStartCh ')' = false)
  have g4 := classNe hc (by decide : isIdentStartCh '[' = false)
  have g5 := classNe hc (by decide : isIdentStartCh ']' = false)
  have g6 := classNe hc (by decide : isIdentStartCh '\x7b' = false)
  have g7 := classNe hc (by decide : isIdentStartCh '\x7d' = false)
  have g8 := classNe hc (by decide : isIdentStartCh '"' = false)
  have hd := identStart_not_digit hc
  simp [lexChars, g1, g2, g3, g4, g5, g6, g7, g8, hd, hc]

/-- The remainder list stops a takeWhile run: it is empty or starts with a
character outside the class. -/
def stopCh (p : Char → Bool) : List Char → Prop
  | [] => True
  | c :: _ => p c = false

theorem takeWhile_append_stop {p : Char → Bool} :
    ∀ (xs r : List Char), (∀ x ∈ xs, p x = true) → stopCh p r →
      (xs ++ r).takeWhile p = xs ∧ (xs ++ r).dropWhile p = r := by
  intro xs
  induction xs with
  | nil =>
      intro r _ hr
      cases r with
      | nil => simp
      | cons c r2 =>
          simp only [stopCh] at hr
          simp [List.takeWhile_cons, List.dropWhile_cons, hr]
  | cons x xs ih =>
      intro r hx hr
      have hpx : p x = true := hx x (by simp)
      have hxs : ∀ y ∈ xs, p y = true := fun y hy => hx y (by simp [hy])
      obtain ⟨h1, h2⟩ := ih r hxs hr
      simp [List.takeWhile_cons, List.dropWhile_cons, hpx, h1, h2]

theorem splitQuote_cons (c : Char) (cs : List Char) :
    splitQuote (c :: cs) =
      if c = '"' then some ([], cs)
      else Option.map (fun p => (c :: p.1, p.2)) (splitQuote cs) := rfl

theorem strBody_splitQuote :
    ∀ {body : List Char}, strBody body = true → ∀ r : List Char,
      splitQuote (body ++ r) = some (body.dropLast, r) ∧
        body.dropLast ++ ['"'] = body := by
  intro body
  induction body with
  | nil => intro h; simp [strBody] at h
  | cons c cs ih =>
      intro h r
      cases cs with
      | nil =>
          simp only [strBody, List.isEmpty_nil, if_true, beq_iff_eq] at h
          subst h
          simp [splitQuote]
      | cons c2 cs2 =>
          simp only [strBody, List.isEmpty_cons, Bool.false_eq_true, if_false,
            Bool.and_eq_true, Bool.not_eq_true', beq_eq_false_iff_ne] at h
          obtain ⟨hc, hb⟩ := h
          obtain ⟨h1, h2⟩ := ih hb r
          constructor
          · rw [List.cons_append, splitQuote_cons, if_neg hc, h1]
            simp [List.dropLast_cons₂]
          · simp only [List.dropLast_cons₂, List.cons_append]
            rw [h2]

theorem lexChars_quote {body : List Char} (hb : strBody body = true) (r : List Char) :
    lexChars ('"' :: (body ++ r)) =
      Option.map (.ftok (.lit .string (String.mk ('"' :: body))) :: ·) (lexChars r) := by
  obtain ⟨h1, h2⟩ := strBody_splitQuote hb r
  simp [lexChars]
  split
  · next heq => rw [h1] at heq; exact absurd heq (by simp)
  · next inner rest heq =>
      rw [h1] at heq
      simp only [Option.some.injEq, Prod.mk.injEq] at heq
      obtain ⟨hA, hB⟩ := heq
      subst hA
      subst hB
      rw [h2]

/-- Clears the joint flag of a punctuation token; identity on other events. -/
def canonFlat : Flat → Flat
  | .ftok (.punct c _) => .ftok (.punct c false)
  | f => f

/-- Clears the joint flag of the final event when that event is a punctuation
token: at the end of the input there is no next token to be adjacent to, so
relexing rendered text yields a cleared flag there. -/
def canonLast : List Flat → List Flat
  | [] => []
  | [a] => [canonFlat a]
  | a :: b :: rest => a :: canonLast (b :: rest)

theorem canonLast_cons {a : Flat} {l : List Flat} (h : l ≠ []) :
    canonLast (a :: l) = a :: canonLast l := by
  cases l with
  | nil => exact absurd rfl h
  | cons b rest => rfl

theorem canonLast_append {l1 l2 : List Flat} (h : l2 ≠ []) :
    canonLast (l1 ++ l2) = l1 ++ canonLast l2 := by
  induction l1 with
  | nil => simp
  | cons a l1 ih =>
      have hne : l1 ++ l2 ≠ [] := by
        intro he
        rcases List.append_eq_nil.mp he with ⟨-, hx⟩
        exact h hx
      simp only [List.cons_append, canonLast_cons hne, ih]

theorem atomText_canonFlat (a : Flat) : atomText (canonFlat a) = atomText a := by
  cases a with
  | ftok t => cases t <;> rfl
  | fopen d => rfl
  | fclose d => rfl

theorem joinAtoms_canonLast : ∀ l : List Flat, joinAtoms (canonLast l) = joinAtoms l := by
  intro l
  induction l with
  | nil => rfl
  | cons a l ih =>
      cases l with
      | nil => simp [canonLast, joinAtoms, atomText_canonFlat]
      | cons b rest =>
          have hcl : canonLast (a :: b :: rest) = a :: canonLast (b :: rest) := rfl
          obtain ⟨x, xs, hx⟩ : ∃ x xs, canonLast (b :: rest) = x :: xs := by
            cases rest with
            | nil => exact ⟨canonFlat b, [], rfl⟩
            | cons d ds => exact ⟨b, canonLast (d :: ds), rfl⟩
          rw [hcl, hx]
          show atomText a ++ (sepAfter a ++ joinAtoms (x :: xs)) =
            atomText a ++ (sepAfter a ++ joinAtoms (b :: rest))
          rw [← hx, ih]

/-- joinAtoms of a nonempty list starts with the text of its first event. -/
theorem joinAtoms_cons (b : Flat) (rest : List Flat) :
    ∃ s, joinAtoms (b :: rest) = atomText b ++ s := by
  cases rest with
  | nil => exact ⟨[], by simp [joinAtoms]⟩
  | cons c rs => exact ⟨sepAfter b ++ joinAtoms (c :: rs), rfl⟩

theorem wfToken_ident {s : String} (h : wfToken (.ident s) = true) :
    ∃ c cs, s.data = c :: cs ∧ isIdentStartCh c = true ∧
      (∀ x ∈ cs, isIdentCh x = true) := by
  simp only [wfToken] at h
  split at h
  · exact absurd h (by decide)
  · next c cs heq =>
      rw [Bool.and_eq_true, List.all_eq_true] at h
      exact ⟨c, cs, heq, h.1, fun x hx => h.2 x hx⟩

theorem wfToken_num {raw : String} (h : wfToken (.lit .numeric raw) = true) :
    ∃ c cs, raw.data = c :: cs ∧ isDigitCh c = true ∧
      (∀ x ∈ cs, isDigitCh x = true) := by
  simp only [wfToken] at h
  split at h
  · exact absurd h (by decide)
  · next c cs heq =>
      rw [Bool.and_eq_true, List.all_eq_true] at h
      exact ⟨c, cs, heq, h.1, fun x hx => h.2 x hx⟩

theorem wfToken_str {raw : String} (h : wfToken (.lit .string raw) = true) :
    ∃ body, raw.data = '"' :: body ∧ strBody body = true := by
  simp only [wfToken] at h
  split at h
  · next body heq => exact ⟨body, heq, h⟩
  · exact absurd h (by decide)

/-- The text of a well-formed event is nonempty and starts with a character
that is not a space. -/
theorem atomText_head {b : Flat} (h : wfFlat b = true) :
    ∃ c cs, atomText b = c :: cs ∧ (c == ' ') = false := by
  cases b with
  | ftok t =>
      cases t with
      | ident s =>
          obtain ⟨c, cs, hs, hstart, -⟩ := wfToken_ident h
          refine ⟨c, cs, by simp [atomText, hs], ?_⟩
          exact beq_eq_false_iff_ne.mpr (classNe hstart (by decide))
      | lit k raw =>
          cases k with
          | numeric =>
              obtain ⟨c, cs, hs, hdig, -⟩ := wfToken_num h
              refine ⟨c, cs, by simp [atomText, hs], ?_⟩
              exact beq_eq_false_iff_ne.mpr (classNe hdig (by decide))
          | string =>
              obtain ⟨body, hs, -⟩ := wfToken_str h
              exact ⟨'"', body, by simp [atomText, hs], by decide⟩
      | punct c j =>
          refine ⟨c, [], rfl, ?_⟩
          have hc : isPunctCh c = true := h
          exact beq_eq_false_iff_ne.mpr (classNe hc (by decide))
  | fopen d =>
      cases d with
      | paren => exact ⟨'(', [], rfl, by decide⟩
      | bracket => exact ⟨'[', [], rfl, by decide⟩
      | brace => exact ⟨'\x7b', [], rfl, by decide⟩
      | noDelim => exact absurd h (by decide)
  | fclose d =>
      cases d with
      | paren => exact ⟨')', [], rfl, by decide⟩
      | bracket => exact ⟨']', [], rfl, by decide⟩
      | brace => exact ⟨'\x7d', [], rfl, by decide⟩
      | noDelim => exact absurd h (by decide)

/-- Lexing the text of one well-formed event followed by an end of input or
by a space yields the event (with a cleared joint flag on a punctuation
token, since nothing is adjacent) in front of the lexing of the remainder. -/
theorem lex_atom {a : Flat} (ha : wfFlat a = true) (r : List Char)
    (hr : r = [] ∨ ∃ J, r = ' ' :: J) :
    lexChars (atomText a ++ r) = Option.map (canonFlat a :: ·) (lexChars r) := by
  have hstopI : stopCh isIdentCh r := by
    rcases hr with rfl | ⟨J, rfl⟩
    · trivial
    · show isIdentCh ' ' = false; decide
  have hstopD : stopCh isDigitCh r := by
    rcases hr with rfl | ⟨J, rfl⟩
    · trivial
    · show isDigitCh ' ' = false; decide
  have hja : jointAfter r = false := by
    rcases hr with rfl | ⟨J, rfl⟩
    · rfl
    · show (!(' ' == ' ')) = false; decide
  cases a with
  | ftok t =>
      cases t with
      | ident s =>
          obtain ⟨c, cs, hs, hstart, hall⟩ := wfToken_ident ha
          obtain ⟨htake, hdrop⟩ := takeWhile_append_stop cs r hall hstopI
          rw [show atomText (Flat.ftok (Token.ident s)) = s.data from rfl, hs]
          rw [List.cons_append, lexChars_identStart hstart, htake, hdrop]
          rw [show String.mk (c :: cs) = s from by rw [← hs]]
          rfl
      | lit k raw =>
          cases k with
          | numeric =>
              obtain ⟨c, cs, hs, hdig, hall⟩ := wfToken_num ha
              obtain ⟨htake, hdrop⟩ := takeWhile_append_stop cs r hall hstopD
              rw [show atomText (Flat.ftok (Token.lit LitKind.numeric raw)) = raw.data from rfl,
                hs]
              rw [List.cons_append, lexChars_digit hdig, htake, hdrop]
              rw [show String.mk (c :: cs) = raw from by rw [← hs]]
              rfl
          | string =>
              obtain ⟨body, hs, hb⟩ := wfToken_str ha
              rw [show atomText (Flat.ftok (Token.lit LitKind.string raw)) = raw.data from rfl,
                hs]
              rw [List.cons_append, lexChars_quote hb r]
              rw [show String.mk ('"' :: body) = raw from by rw [← hs]]
              rfl
      | punct c j =>
          have hc : isPunctCh c = true := ha
          rw [show atomText (Flat.ftok (Token.punct c j)) = [c] from rfl]
          rw [List.singleton_append, lexChars_punct hc, hja]
          rfl
  | fopen d =>
      cases d with
      | paren => rw [show atomText (Flat.fopen .paren) = ['('] from rfl,
          List.singleton_append, lexChars_open_paren]; rfl
      | bracket => rw [show atomText (Flat.fopen .bracket) = ['['] from rfl,
          List.singleton_append, lexChars_open_bracket]; rfl
      | brace => rw [show atomText (Flat.fopen .brace) = ['\x7b'] from rfl,
          List.singleton_append, lexChars_open_brace]; rfl
      | noDelim => exact absurd ha (by decide)
  | fclose d =>
      cases d with
      | paren => rw [show atomText (Flat.fclose .paren) = [')'] from rfl,
          List.singleton_append, lexChars_close_paren]; rfl
      | bracket => rw [show atomText (Flat.fclose .bracket) = [']'] from rfl,
          List.singleton_append, lexChars_close_bracket]; rfl
      | brace => rw [show atomText (Flat.fclose .brace) = ['\x7d'] from rfl,
          List.singleton_append, lexChars_close_brace]; rfl
      | noDelim => exact absurd ha (by decide)

theorem lexChars_nil : lexChars [] = some [] := by simp [lexChars]

/-- Relexing the joined text of a well-formed event list recovers the list,
except that a trailing punctuation token comes back with a cleared joint
flag (there is no next token for it to be adjacent to). -/
theorem lex_joinAtoms : ∀ l : List Flat, wfAtoms l = true →
    lexChars (joinAtoms l) = some (canonLast l) := by
  intro l
  induction l with
  | nil =>
      intro h
      rw [show joinAtoms [] = [] from rfl, lexChars_nil]
      rfl
  | cons a l ih =>
      intro hwf
      rw [wfAtoms, List.all_cons, Bool.and_eq_true] at hwf
      obtain ⟨ha, hl⟩ := hwf
      cases l with
      | nil =>
          show lexChars (atomText a) = some [canonFlat a]
          rw [← List.append_nil (atomText a), lex_atom ha [] (Or.inl rfl), lexChars_nil]
          rfl
      | cons b rest =>
          have ihr := ih hl
          have hbwf : wfFlat b = true := by
            rw [List.all_cons, Bool.and_eq_true] at hl
            exact hl.1
          show lexChars (atomText a ++ (sepAfter a ++ joinAtoms (b :: rest))) =
            some (a :: canonLast (b :: rest))
          by_cases hj : ∃ c, a = Flat.ftok (Token.punct c true)
          · obtain ⟨c, rfl⟩ := hj
            have hc : isPunctCh c = true := ha
            rw [show sepAfter (Flat.ftok (Token.punct c true)) = [] from rfl,
              List.nil_append]
            rw [show atomText (Flat.ftok (Token.punct c true)) = [c] from rfl,
              List.singleton_append]
            rw [lexChars_punct hc, ihr]
            obtain ⟨s, hJ⟩ := joinAtoms_cons b rest
            obtain ⟨cb, csb, hcb, hcbne⟩ := atomText_head hbwf
            have hjtrue : jointAfter (joinAtoms (b :: rest)) = true := by
              rw [hJ, hcb, List.cons_append]
              show (!(cb == ' ')) = true
              rw [hcbne]
              rfl
            rw [hjtrue]
            rfl
          · have hsep : sepAfter a = [' '] := by
              cases a with
              | ftok t =>
                  cases t with
                  | punct c j =>
                      cases j with
                      | false => rfl
                      | true => exact absurd ⟨c, rfl⟩ hj
                  | ident s => rfl
                  | lit k raw => rfl
              | fopen d => rfl
              | fclose d => rfl
            have hcf : canonFlat a = a := by
              cases a with
              | ftok t =>
                  cases t with
                  | punct c j =>
                      cases j with
                      | false => rfl
                      | true => exact absurd ⟨c, rfl⟩ hj
                  | ident s => rfl
                  | lit k raw => rfl
              | fopen d => rfl
              | fclose d => rfl
            rw [hsep, List.singleton_append]
            rw [lex_atom ha (' ' :: joinAtoms (b :: rest)) (Or.inr ⟨_, rfl⟩)]
            rw [lexChars_space, ihr, hcf]
            rfl

/-- Appends two token trees. -/
def appendTree : TokenTree → TokenTree → TokenTree
  | .nil, u => u
  | .cons i rest, u => .cons i (appendTree rest u)

theorem ofList_itemsOf : ∀ t : TokenTree, ofList (itemsOf t) = t
  | .nil => rfl
  | .cons i rest => by
      show TokenTree.cons i (ofList (itemsOf rest)) = TokenTree.cons i rest
      rw [ofList_itemsOf rest]

/-- Balanced flat event lists together with the token tree they rebuild to:
a token event is a token item, and an open delimiter followed by a balanced
body and the matching close delimiter is a group item. -/
inductive BalT : List Flat → TokenTree → Prop where
  | nil : BalT [] .nil
  | tk {t : Token} {fl : List Flat} {ts : TokenTree} :
      BalT fl ts → BalT (.ftok t :: fl) (.cons (.tok t) ts)
  | grp {d : DelimKind} {inner fl : List Flat} {bts ts : TokenTree} :
      d ≠ .noDelim → BalT inner bts → BalT fl ts →
      BalT (.fopen d :: inner ++ .fclose d :: fl) (.cons (.group d bts) ts)

theorem balT_append {l1 l2 : List Flat} {t1 t2 : TokenTree}
    (h1 : BalT l1 t1) (h2 : BalT l2 t2) :
    BalT (l1 ++ l2) (appendTree t1 t2) := by
  induction h1 with
  | nil => exact h2
  | tk h ih => exact BalT.tk ih
  | grp hd hin hfl ihin ihfl =>
      have hg := BalT.grp hd hin ihfl
      simpa [List.cons_append, List.append_assoc] using hg

/-- Every flattening is balanced: some token tree rebuilds from it. -/
theorem balT_flatten : ∀ t : TokenTree, ∃ ts, BalT (flattenTree t) ts
  | .nil => ⟨.nil, .nil⟩
  | .cons (.tok tk) rest =>
      let ⟨ts, h⟩ := balT_flatten rest
      ⟨_, BalT.tk h⟩
  | .cons (.group .noDelim body) rest =>
      let ⟨t1, h1⟩ := balT_flatten body
      let ⟨t2, h2⟩ := balT_flatten rest
      ⟨_, balT_append h1 h2⟩
  | .cons (.group .paren body) rest =>
      let ⟨t1, h1⟩ := balT_flatten body
      let ⟨t2, h2⟩ := balT_flatten rest
      ⟨_, BalT.grp (by decide) h1 h2⟩
  | .cons (.group .bracket body) rest =>
      let ⟨t1, h1⟩ := balT_flatten body
      let ⟨t2, h2⟩ := balT_flatten rest
      ⟨_, BalT.grp (by decide) h1 h2⟩
  | .cons (.group .brace body) rest =>
      let ⟨t1, h1⟩ := balT_flatten body
      let ⟨t2, h2⟩ := balT_flatten rest
      ⟨_, BalT.grp (by decide) h1 h2⟩

theorem canonFlat_ftok (t : Token) : ∃ t2, canonFlat (.ftok t) = Flat.ftok t2 := by
  cases t with
  | ident s => exact ⟨.ident s, rfl⟩
  | lit k raw => exact ⟨.lit k raw, rfl⟩
  | punct c j => exact ⟨.punct c false, rfl⟩

/-- Clearing the trailing joint flag preserves balance. -/
theorem balT_canonLast {fl : List Flat} {ts : TokenTree} (h : BalT fl ts) :
    ∃ ts2, BalT (canonLast fl) ts2 := by
  induction h with
  | nil => exact ⟨.nil, .nil⟩
  | tk h ih =>
      next t fl ts =>
        cases fl with
        | nil =>
            obtain ⟨t2, ht2⟩ := canonFlat_ftok t
            refine ⟨.cons (.tok t2) .nil, ?_⟩
            rw [show canonLast [Flat.ftok t] = [canonFlat (.ftok t)] from rfl, ht2]
            exact BalT.tk BalT.nil
        | cons f fl2 =>
            obtain ⟨ts2, h2⟩ := ih
            refine ⟨.cons (.tok t) ts2, ?_⟩
            rw [canonLast_cons (List.cons_ne_nil f fl2)]
            exact BalT.tk h2
  | grp hd hin hfl ihin ihfl =>
      next d inner fl bts ts =>
        cases fl with
        | nil =>
            have hre : (Flat.fopen d :: inner ++ Flat.fclose d :: ([] : List Flat)) =
                (Flat.fopen d :: inner) ++ [Flat.fclose d] := by simp
            refine ⟨.cons (.group d bts) ts, ?_⟩
            rw [hre, canonLast_append (List.cons_ne_nil _ _),
              show canonLast [Flat.fclose d] = [Flat.fclose d] from rfl, ← hre]
            exact BalT.grp hd hin hfl
        | cons f fl2 =>
            obtain ⟨ts2, h2⟩ := ihfl
            have hre : (Flat.fopen d :: inner ++ Flat.fclose d :: (f :: fl2)) =
                (Flat.fopen d :: inner ++ [Flat.fclose d]) ++ (f :: fl2) := by simp
            refine ⟨.cons (.group d bts) ts2, ?_⟩
            rw [hre, canonLast_append (List.cons_ne_nil f fl2)]
            have hg := BalT.grp hd hin h2
            simpa [List.cons_append, List.append_assoc] using hg

theorem processFlats_append (l1 l2 : List Flat) (st : MState) :
    processFlats (l1 ++ l2) st = Option.bind (processFlats l1 st) (processFlats l2) := by
  induction l1 generalizing st with
  | nil => rfl
  | cons f fs ih =>
      show Option.bind (stepFlat st f) (processFlats (fs ++ l2)) =
        Option.bind (Option.bind (stepFlat st f) (processFlats fs)) (processFlats l2)
      cases stepFlat st f with
      | none => rfl
      | some st2 => exact ih st2

/-- Running the tree builder over a balanced event list leaves the stack
unchanged and pushes the rebuilt items, in reverse, onto the current
sequence. -/
theorem processFlats_balT {fl : List Flat} {ts : TokenTree} (h : BalT fl ts) :
    ∀ stack cur, processFlats fl (stack, cur) =
      some (stack, (itemsOf ts).reverse ++ cur) := by
  induction h with
  | nil => intro stack cur; rfl
  | tk h ih =>
      next t fl ts =>
        intro stack cur
        show processFlats fl (stack, .tok t :: cur) =
          some (stack, (itemsOf (.cons (.tok t) ts)).reverse ++ cur)
        rw [ih stack (TreeItem.tok t :: cur)]
        simp [itemsOf]
  | grp hd hin hfl ihin ihfl =>
      next d inner fl bts ts =>
        intro stack cur
        show processFlats (inner ++ Flat.fclose d :: fl) ((d, cur) :: stack, []) =
          some (stack, (itemsOf (.cons (.group d bts) ts)).reverse ++ cur)
        rw [processFlats_append, ihin ((d, cur) :: stack) []]
        have hstep : stepFlat ((d, cur) :: stack, (itemsOf bts).reverse ++ [])
            (Flat.fclose d) = some (stack,
              .group d (ofList ((itemsOf bts).reverse ++ []).reverse) :: cur) := by
          simp [stepFlat]
        show Option.bind (stepFlat ((d, cur) :: stack, (itemsOf bts).reverse ++ [])
          (Flat.fclose d)) (processFlats fl) =
          some (stack, (itemsOf (.cons (.group d bts) ts)).reverse ++ cur)
        rw [hstep, Option.some_bind, ihfl]
        simp [itemsOf, ofList_itemsOf]

/-- The tree builder rebuilds exactly the tree of a balanced event list. -/
theorem treeify_balT {fl : List Flat} {ts : TokenTree} (h : BalT fl ts) :
    treeify fl = some ts := by
  rw [treeify, processFlats_balT h [] []]
  simp [ofList_itemsOf]

/-- Flattening the rebuilt tree of a balanced event list gives the list
back. -/
theorem flatten_balT {fl : List Flat} {ts : TokenTree} (h : BalT fl ts) :
    flattenTree ts = fl := by
  induction h with
  | nil => rfl
  | tk h ih =>
      next t fl ts => show Flat.ftok t :: flattenTree ts = _; rw [ih]
  | grp hd hin hfl ihin ihfl =>
      next d inner fl bts ts =>
        cases d with
        | noDelim => exact absurd rfl hd
        | paren =>
            show Flat.fopen .paren :: flattenTree bts ++ Flat.fclose .paren ::
              flattenTree ts = _
            rw [ihin, ihfl]
        | bracket =>
            show Flat.fopen .bracket :: flattenTree bts ++ Flat.fclose .bracket ::
              flattenTree ts = _
            rw [ihin, ihfl]
        | brace =>
            show Flat.fopen .brace :: flattenTree bts ++ Flat.fclose .brace ::
              flattenTree ts = _
            rw [ihin, ihfl]

/-- Checks that the delimiter events of a flat list are well nested, with a
stack of currently open delimiter kinds. -/
def checkNest : List DelimKind → List Flat → Bool
  | st, [] => st.isEmpty
  | st, .ftok _ :: fs => checkNest st fs
  | st, .fopen d :: fs => checkNest (d :: st) fs
  | st, .fclose d :: fs =>
      match st with
      | [] => false
      | d0 :: st2 => d == d0 && checkNest st2 fs

theorem checkNest_balT {fl : List Flat} {ts : TokenTree} (h : BalT fl ts) :
    ∀ st k, checkNest st (fl ++ k) = checkNest st k := by
  induction h with
  | nil => intro st k; rfl
  | tk h ih => intro st k; exact ih st k
  | grp hd hin hfl ihin ihfl =>
      next d inner fl bts ts =>
        intro st k
        show checkNest (d :: st) ((inner ++ Flat.fclose d :: fl) ++ k) = checkNest st k
        rw [List.append_assoc, ihin (d :: st) (Flat.fclose d :: fl ++ k)]
        show (d == d && checkNest st (fl ++ k)) = checkNest st k
        rw [beq_self_eq_true, Bool.true_and, ihfl st k]

/-- The flattening of any token tree is well nested. -/
theorem checkNest_flatten (t : TokenTree) : checkNest [] (flattenTree t) = true := by
  obtain ⟨ts, h⟩ := balT_flatten t
  have hc := checkNest_balT h [] []
  rw [List.append_nil] at hc
  rw [hc]
  rfl

/-- Relexing the rendered text of a well-formed tree yields its flattening,
up to the trailing joint flag. -/
theorem lex_render {t : TokenTree} (h : wfTree t = true) :
    lexChars (render t).data = some (canonLast (flattenTree t)) := by
  show lexChars (joinAtoms (flattenTree t)) = some (canonLast (flattenTree t))
  exact lex_joinAtoms _ h

/-- Reparsing the rendered text of a well-formed tree succeeds, and the
reparsed tree flattens to the canonized flattening of the original. -/
theorem reparse_render {t : TokenTree} (h : wfTree t = true) :
    ∃ t2, reparse (render t) = some t2 ∧
      flattenTree t2 = canonLast (flattenTree t) := by
  obtain ⟨ts0, h0⟩ := balT_flatten t
  obtain ⟨ts2, h2⟩ := balT_canonLast h0
  refine ⟨ts2, ?_, flatten_balT h2⟩
  rw [reparse, lex_render h]
  simp [treeify_balT h2]

theorem joinAtoms_cons_ne {a : Flat} {L : List Flat} (h : L ≠ []) :
    joinAtoms (a :: L) = atomText a ++ (sepAfter a ++ joinAtoms L) := by
  cases L with
  | nil => exact absurd rfl h
  | cons b r => rfl

/-- A joint punctuation event immediately followed by another punctuation
event joins with zero intervening characters. -/
theorem joinAtoms_joint : ∀ (l1 l2 : List Flat) (c c2 : Char) (j2 : Bool),
    ∃ pre suf,
      joinAtoms (l1 ++ .ftok (.punct c true) :: .ftok (.punct c2 j2) :: l2) =
        pre ++ c :: c2 :: suf := by
  intro l1
  induction l1 with
  | nil =>
      intro l2 c c2 j2
      obtain ⟨s, hs⟩ := joinAtoms_cons (.ftok (.punct c2 j2)) l2
      refine ⟨[], s, ?_⟩
      show atomText (.ftok (.punct c true)) ++ (sepAfter (.ftok (.punct c true)) ++
        joinAtoms (.ftok (.punct c2 j2) :: l2)) = [] ++ c :: c2 :: s
      rw [hs]
      rfl
  | cons a l1 ih =>
      intro l2 c c2 j2
      obtain ⟨pre, suf, hps⟩ := ih l2 c c2 j2
      refine ⟨atomText a ++ (sepAfter a ++ pre), suf, ?_⟩
      have hne : l1 ++
          (Flat.ftok (.punct c true) :: Flat.ftok (.punct c2 j2) :: l2) ≠ [] := by
        intro he
        rcases List.append_eq_nil.mp he with ⟨-, h2⟩
        exact List.cons_ne_nil _ _ h2
      rw [List.cons_append, joinAtoms_cons_ne hne, hps]
      simp [List.append_assoc]

/-- Recognizes delimiter events. -/
def isDelimF : Flat → Bool
  | .ftok _ => false
  | .fopen _ => true
  | .fclose _ => true

theorem canonLast_filter : ∀ l : List Flat,
    (canonLast l).filter isDelimF = l.filter isDelimF := by
  intro l
  induction l with
  | nil => rfl
  | cons a l ih =>
      cases l with
      | nil =>
          show List.filter isDelimF [canonFlat a] = List.filter isDelimF [a]
          cases a with
          | ftok t => cases t <;> rfl
          | fopen d => rfl
          | fclose d => rfl
      | cons b rest =>
          show List.filter isDelimF (a :: canonLast (b :: rest)) =
            List.filter isDelimF (a :: b :: rest)
          rw [List.filter_cons, List.filter_cons, ih]

theorem lookup_insert_stringify (tbl : MacroDefinitionTable) :
    lookupName (insertName tbl "stringify" (.builtin .stringify)) "stringify" =
      some (.builtin .stringify) := by
  rw [insertName]
  split
  · next hp =>
      rw [protectedBuiltin, Bool.and_eq_true] at hp
      obtain ⟨-, h2⟩ := hp
      split at h2
      · next k heq => cases k; exact heq
      · exact absurd h2 (by decide)
  · simp [lookupName]

theorem lookup_insert_preserve {tbl : MacroDefinitionTable} (n : String)
    (d : MacroDefinition)
    (h : lookupName tbl "stringify" = some (.builtin .stringify)) :
    lookupName (insertName tbl n d) "stringify" = some (.builtin .stringify) := by
  rw [insertName]
  split
  · exact h
  · next hp =>
      show lookupName ((n, d) :: tbl) "stringify" = some (.builtin .stringify)
      rw [lookupName]
      split
      · next he =>
          exfalso
          apply hp
          rw [← he, protectedBuiltin, h]
          decide
      · exact h

theorem lookup_insertAll_preserve (l : List (String × MacroDefinition)) :
    ∀ tbl : MacroDefinitionTable,
      lookupName tbl "stringify" = some (.builtin .stringify) →
      lookupName (insertAll tbl l) "stringify" = some (.builtin .stringify) := by
  induction l with
  | nil => intro tbl h; exact h
  | cons p l ih =>
      intro tbl h
      show lookupName (insertAll (insertName tbl p.1 p.2) l) "stringify" =
        some (.builtin .stringify)
      exact ih _ (lookup_insert_preserve p.1 p.2 h)

/-- The nested-group example tree of the spec, tokens representing
brace x semicolon y brace. -/
def exNested : TokenTree :=
  ofList [.group .brace (ofList [.tok (.ident "x"), .tok (.punct ';' false),
    .tok (.ident "y")])]

/-- C1: for every Definition Table in which the stringify builtin was
inserted first and a user-defined macro also named stringify was inserted
afterwards (with arbitrary other insertions before, between and after),
resolving any invocation of stringify yields ResolvedBuiltin and never
ResolvedUser. -/
theorem claim_c1_stringify_not_shadowed (init : MacroDefinitionTable)
    (mids posts : List (String × MacroDefinition)) (rules : List MacroRule)
    (site : Nat) (_invocationTokens : TokenTree) :
    resolve (insertAll (insertName (insertAll (insertName init "stringify"
        (.builtin .stringify)) mids) "stringify" (.userDefined rules)) posts)
      "stringify" site = .resolvedBuiltin .stringify ∧
    ∀ rs : List MacroRule,
      ¬(resolve (insertAll (insertName (insertAll (insertName init "stringify"
          (.builtin .stringify)) mids) "stringify" (.userDefined rules)) posts)
        "stringify" site = .resolvedUser rs) := by
  have h1 := lookup_insert_stringify init
  have h2 := lookup_insertAll_preserve mids _ h1
  have h3 := lookup_insert_preserve "stringify" (.userDefined rules) h2
  have h4 := lookup_insertAll_preserve posts _ h3
  constructor
  · rw [resolve, h4]
  · intro rs hcontra
    rw [resolve, h4] at hcontra
    simp at hcontra

/-- C2: for the invocation stringify of let a = 2, the Stringifier receives
the token sequence let, a, equals sign, 2, the invocation resolves to the
builtin in the fixture table, and the resulting string equals
the text let a = 2. -/
theorem claim_c2_stringify_let_a_eq_2 :
    flattenTree fixtureTree1 = [.ftok (.ident "let"), .ftok (.ident "a"),
        .ftok (.punct '=' false), .ftok (.lit .numeric "2")] ∧
      resolve fixtureTable "stringify" 18 = .resolvedBuiltin .stringify ∧
      render fixtureTree1 = "let a = 2" :=
  ⟨rfl, rfl, rfl⟩

/-- C3: the dg-output directive of the fixture expects, for the second
stringify invocation, the two-character digit string 18, which is not the
reconstructed source text of the captured multi-line token tree. -/
theorem claim_c3_fixture_second_output_numeral :
    fixtureDgOutput = "let a = 2" ++ "\n" ++ "18" ++ "\n" ∧
      ("18" : String).data.all isDigitCh = true ∧
      ("18" : String).data.length = 2 ∧
      ¬(("18" : String) = render fixtureTree2) := by
  refine ⟨by decide, by decide, by decide, by decide⟩

/-- C4: for every well-formed token tree, the delimiter events of the relexed
rendered text equal the delimiter events of the tree, in order, and those
events are well nested; in particular the nested-group example renders with
the inner sequence preserved and the outer braces intact. -/
theorem claim_c4_group_balance (t : TokenTree) (h : wfTree t = true) :
    (∃ fl, lexChars (render t).data = some fl ∧
        fl.filter isDelimF = (flattenTree t).filter isDelimF) ∧
      checkNest [] (flattenTree t) = true ∧
      render exNested = "\x7b x ; y \x7d" :=
  ⟨⟨canonLast (flattenTree t), lex_render h, canonLast_filter _⟩,
    checkNest_flatten t, rfl⟩

theorem claim_c4_group_balance_witness :
    wfTree fixtureTree2 = true ∧
      ((∃ fl, lexChars (render fixtureTree2).data = some fl ∧
          fl.filter isDelimF = (flattenTree fixtureTree2).filter isDelimF) ∧
        checkNest [] (flattenTree fixtureTree2) = true ∧
        render exNested = "\x7b x ; y \x7d") :=
  ⟨by decide, claim_c4_group_balance fixtureTree2 (by decide)⟩

/-- C5: rendering is idempotent under re-tokenizing: for every well-formed
token tree, reparsing the rendered text succeeds and rendering the reparsed
tree yields the same text. -/
theorem claim_c5_render_reparse_idempotent (t : TokenTree) (h : wfTree t = true) :
    ∃ t2, reparse (render t) = some t2 ∧ render t2 = render t := by
  obtain ⟨t2, hr, hf⟩ := reparse_render h
  refine ⟨t2, hr, ?_⟩
  show String.mk (joinAtoms (flattenTree t2)) = String.mk (joinAtoms (flattenTree t))
  rw [hf, joinAtoms_canonLast]

theorem claim_c5_render_reparse_idempotent_witness :
    wfTree fixtureTree2 = true ∧
      (∃ t2, reparse (render fixtureTree2) = some t2 ∧
        render t2 = render fixtureTree2) :=
  ⟨by decide, claim_c5_render_reparse_idempotent fixtureTree2 (by decide)⟩

/-- C6: a punctuation token whose joint flag is set renders with zero
intervening characters before the following punctuation token, so a
two-character operator renders as one unbroken run. -/
theorem claim_c6_joint_fused (t : TokenTree) (l1 l2 : List Flat) (c c2 : Char)
    (j2 : Bool)
    (h : flattenTree t = l1 ++ .ftok (.punct c true) :: .ftok (.punct c2 j2) :: l2) :
    ∃ pre suf, (render t).data = pre ++ c :: c2 :: suf := by
  obtain ⟨pre, suf, hp⟩ := joinAtoms_joint l1 l2 c c2 j2
  refine ⟨pre, suf, ?_⟩
  show joinAtoms (flattenTree t) = pre ++ c :: c2 :: suf
  rw [h, hp]

theorem claim_c6_joint_fused_witness :
    flattenTree (ofList [.tok (.punct ':' true), .tok (.punct ':' false)]) =
        [] ++ .ftok (.punct ':' true) :: .ftok (.punct ':' false) :: [] ∧
      (∃ pre suf,
        (render (ofList [.tok (.punct ':' true), .tok (.punct ':' false)])).data =
          pre ++ ':' :: ':' :: suf) :=
  ⟨by decide,
    claim_c6_joint_fused (ofList [.tok (.punct ':' true), .tok (.punct ':' false)])
      [] [] ':' ':' false (by decide)⟩

/-- C7: the Stringifier is total over well-formed trees: rendering always
produces a string, and that string is valid re-lexable source text, so
reparsing it never fails. -/
theorem claim_c7_render_total_relexable (t : TokenTree) (h : wfTree t = true) :
    ∃ t2, reparse (render t) = some t2 := by
  obtain ⟨t2, hr, -⟩ := reparse_render h
  exact ⟨t2, hr⟩

theorem claim_c7_render_total_relexable_witness :
    wfTree fixtureTree1 = true ∧
      ∃ t2, reparse (render fixtureTree1) = some t2 :=
  ⟨by decide, claim_c7_render_total_relexable fixtureTree1 (by decide)⟩

/-- C8: resolution yields the fatal unknown-macro error, reported with the
call-site location, exactly for names absent from the Definition Table; a
present name never produces it. -/
theorem claim_c8_unknown_macro_error (tbl : MacroDefinitionTable) (name : String)
    (site : Nat) :
    lookupName tbl name = none ↔
      resolve tbl name site = .error "unknown macro" site := by
  constructor
  · intro h
    rw [resolve, h]
  · intro h
    cases hl : lookupName tbl name with
    | none => rfl
    | some d =>
        rw [resolve, hl] at h
        cases d with
        | builtin k => simp at h
        | userDefined rules => simp at h

/-- C9: rendering the empty token tree yields the empty string. -/
theorem claim_c9_render_empty : render .nil = "" := rfl

/-- C10: the user-defined stringify macro of the fixture has the single rule
that captures every token tree and transcribes to nothing, so every
invocation matched against it expands to the empty token stream; the
invocations of the program resolve to the builtin, whose output for the
first invocation is not empty. -/
theorem claim_c10_user_stringify_expands_empty :
    (∀ ts : TokenTree, expandUser [⟨.repAnyTT "t", .nil⟩] ts = some .nil) ∧
      fixtureUserStringify = .userDefined [⟨.repAnyTT "t", .nil⟩] ∧
      resolve fixtureTable "stringify" 0 = .resolvedBuiltin .stringify ∧
      render .nil = "" ∧
      ¬(render fixtureTree1 = "") := by
  refine ⟨fun ts => rfl, rfl, rfl, rfl, by decide⟩

end Gccrs
